import Mathlib

/-!
Verification of the FDC3 AWS KMS signer core (`src/aws-kms-signer.ts`,
`src/types.ts`) against its natural-language specification.

The structured objects handled by the signer (FDC3 contexts) are modelled as a
tagged union of JSON-compatible values.  The AWS KMS client and the Node
`crypto` verification primitive are external effectful collaborators; they are
modelled as an explicit environment of fallible functions (`Except String`
models a thrown/rejected JavaScript error carrying its message).  Machine
bytes are modelled as `Nat` values below 256.
-/

namespace FDC3AWSKMSSigner

/-- A JSON-compatible structured value: the model of an FDC3 `Context` object
(`types.ts` declares `Context` as an open mapping from string keys to
arbitrary values).  Mappings are ordered association lists, mirroring
JavaScript property insertion order. -/
inductive JValue where
  | null : JValue
  | bool : Bool → JValue
  | num : Int → JValue
  | str : String → JValue
  | arr : List JValue → JValue
  | obj : List (String × JValue) → JValue
deriving Inhabited

/-- The FDC3 context type alias used by the signer. -/
abbrev Context := JValue

/-- `Object.keys(obj)`: the keys of a mapping, in property order. -/
def keysOf (fields : List (String × JValue)) : List String :=
  fields.map Prod.fst

/-- JavaScript property access `obj[key]`: the value stored under `key`
(first occurrence; JavaScript objects never hold a key twice).  The `.null`
default is unreachable for keys obtained from `Object.keys`. -/
def jlookup (k : String) : List (String × JValue) → JValue
  | [] => JValue.null
  | (k', v) :: rest => if k' = k then v else jlookup k rest

theorem sizeOf_jlookup_lt (k : String) (fields : List (String × JValue)) :
    sizeOf (jlookup k fields) < 1 + sizeOf fields := by
  induction fields with
  | nil => simp [jlookup]
  | cons p rest ih =>
    obtain ⟨k', v⟩ := p
    simp only [jlookup]
    split
    · simp; omega
    · simp; omega

/-- `sortKeys` from `canonicalizeContext`: recursively rewrite a value so that
every mapping lists its keys in ascending lexicographic order
(`Object.keys(obj).sort()`), arrays map elementwise, scalars and `null` pass
through. -/
def sortKeys : JValue → JValue
  | JValue.null => JValue.null
  | JValue.bool b => JValue.bool b
  | JValue.num n => JValue.num n
  | JValue.str s => JValue.str s
  | JValue.arr xs => JValue.arr (xs.attach.map fun x => sortKeys x.val)
  | JValue.obj fields =>
      JValue.obj (((keysOf fields).insertionSort (fun a b => a ≤ b)).map
        fun k => (k, sortKeys (jlookup k fields)))
termination_by v => sizeOf v
decreasing_by
  · have h := List.sizeOf_lt_of_mem x.property
    simp only [JValue.arr.sizeOf_spec]
    omega
  · have h := sizeOf_jlookup_lt k fields
    simp only [JValue.obj.sizeOf_spec]
    omega

/-- Lower-case hexadecimal digit, as used by `JSON.stringify` escapes. -/
def hexDigit (n : Nat) : Char :=
  if n < 10 then Char.ofNat (48 + n) else Char.ofNat (87 + n)

/-- `JSON.stringify` escaping of a single character inside a string literal. -/
def escapeChar (c : Char) : List Char :=
  if c = '"' then ['\\', '"']
  else if c = '\\' then ['\\', '\\']
  else if c = '\n' then ['\\', 'n']
  else if c = '\r' then ['\\', 'r']
  else if c = '\t' then ['\\', 't']
  else if c = '\x08' then ['\\', 'b']
  else if c = '\x0c' then ['\\', 'f']
  else if c.toNat < 32 then ['\\', 'u', '0', '0', hexDigit (c.toNat / 16), hexDigit (c.toNat % 16)]
  else [c]

/-- `JSON.stringify` rendering of a string: escaped and wrapped in quotes. -/
def jsonQuote (s : String) : String :=
  "\"" ++ String.mk (s.data.flatMap escapeChar) ++ "\""

/-- `JSON.stringify` on the modelled values (no replacer, no spacing):
`null`, booleans and numbers print their literal form, strings are quoted and
escaped, arrays and objects are comma-joined inside brackets with no
whitespace. -/
def stringify : JValue → String
  | JValue.null => "null"
  | JValue.bool true => "true"
  | JValue.bool false => "false"
  | JValue.num n => toString n
  | JValue.str s => jsonQuote s
  | JValue.arr xs =>
      "[" ++ String.intercalate "," (xs.attach.map fun x => stringify x.val) ++ "]"
  | JValue.obj fields =>
      "\x7b" ++ String.intercalate ","
        (fields.attach.map fun p => jsonQuote p.val.fst ++ ":" ++ stringify p.val.snd) ++ "\x7d"
termination_by v => sizeOf v
decreasing_by
  · have h := List.sizeOf_lt_of_mem x.property
    simp only [JValue.arr.sizeOf_spec]
    omega
  · have h := List.sizeOf_lt_of_mem p.property
    have h2 : sizeOf p.val.snd < sizeOf p.val := by
      obtain ⟨k, v⟩ := p.val
      simp
    simp only [JValue.obj.sizeOf_spec]
    omega

/-- `canonicalizeContext`: canonical JSON string of a context — keys sorted
recursively, then serialized with `JSON.stringify`. -/
def canonicalizeContext (context : Context) : String :=
  stringify (sortKeys context)

/-- `Buffer.from(s, 'utf8')`: the UTF-8 bytes of a string. -/
def utf8Bytes (s : String) : List Nat :=
  s.toUTF8.toList.map UInt8.toNat

/-- The canonical byte sequence a context is signed and verified over. -/
def canonicalBytes (context : Context) : List Nat :=
  utf8Bytes (canonicalizeContext context)

/-- The base64 alphabet. -/
def b64Alphabet : List Char :=
  "ABCDEFGHIJKLMNOPQRSTUVWXYZabcdefghijklmnopqrstuvwxyz0123456789+/".data

/-- The base64 character of a sextet. -/
def b64Char (n : Nat) : Char :=
  b64Alphabet.getD n '='

/-- Base64 encoding (`Buffer.prototype.toString('base64')`), producing the
character list: 3 bytes become 4 sextet characters, a 1- or 2-byte tail is
padded with `=`. -/
def base64encodeChars : List Nat → List Char
  | [] => []
  | [a] => [b64Char (a / 4), b64Char (a % 4 * 16), '=', '=']
  | [a, b] => [b64Char (a / 4), b64Char (a % 4 * 16 + b / 16), b64Char (b % 16 * 4), '=']
  | a :: b :: c :: rest =>
      b64Char (a / 4) :: b64Char (a % 4 * 16 + b / 16) ::
      b64Char (b % 16 * 4 + c / 64) :: b64Char (c % 64) :: base64encodeChars rest

/-- `Buffer.from(bytes).toString('base64')`. -/
def base64encode (bs : List Nat) : String :=
  String.mk (base64encodeChars bs)

/-- The sextet value of a base64 character (`none` for padding or any
non-alphabet character, which Node's decoder skips). -/
def b64Val (c : Char) : Option Nat :=
  b64Alphabet.findIdx? (fun x => x = c)

/-- Regroup decoded sextets into bytes: 4 sextets give 3 bytes, a 3-sextet
tail gives 2 bytes, a 2-sextet tail gives 1 byte. -/
def sextetsToBytes : List Nat → List Nat
  | s1 :: s2 :: s3 :: s4 :: rest =>
      (s1 * 4 + s2 / 16) :: (s2 % 16 * 16 + s3 / 4) :: (s3 % 4 * 64 + s4) :: sextetsToBytes rest
  | [s1, s2] => [s1 * 4 + s2 / 16]
  | [s1, s2, s3] => [s1 * 4 + s2 / 16, s2 % 16 * 16 + s3 / 4]
  | _ => []

/-- `Buffer.from(s, 'base64')`: lenient base64 decoding — non-alphabet
characters (including `=` padding) are skipped, remaining sextets are
regrouped into bytes. -/
def base64decode (s : String) : List Nat :=
  sextetsToBytes (s.data.filterMap b64Val)

/-- 64-character chunking of a character list, as the regex
`/.{1,64}/g` produces on a newline-free string. -/
def chunk64 (cs : List Char) : List (List Char) :=
  if h : cs = [] then [] else cs.take 64 :: chunk64 (cs.drop 64)
termination_by cs.length
decreasing_by
  have h2 : 0 < cs.length := List.length_pos.mpr h
  simp [List.length_drop]
  omega

/-- `derToPem`: base64-encode the DER bytes, fold into lines of at most 64
characters joined by newlines (`base64.match(/.{1,64}/g)?.join('\n') ||
base64`, the `|| base64` branch firing only on the empty string), and wrap in
the PEM header and footer lines. -/
def derToPem (derBuffer : List Nat) : String :=
  let base64 := base64encode derBuffer
  let pem := String.intercalate "\n" ((chunk64 base64.data).map String.mk)
  "-----BEGIN PUBLIC KEY-----\n" ++ pem ++ "\n-----END PUBLIC KEY-----"

/-- `getNodeAlgorithm`: map a KMS signing-algorithm identifier to the Node
`crypto` digest name; any other identifier throws `Unsupported algorithm`. -/
def getNodeAlgorithm (kmsAlgorithm : String) : Except String String :=
  if kmsAlgorithm = "RSASSA_PKCS1_V1_5_SHA_256" then Except.ok "RSA-SHA256"
  else if kmsAlgorithm = "ECDSA_SHA_256" then Except.ok "sha256"
  else Except.error ("Unsupported algorithm: " ++ kmsAlgorithm)

/-- The default signing algorithm of `sign`
(`SigningAlgorithmSpec.RSASSA_PKCS1_V1_5_SHA_256`). -/
def defaultAlgorithm : String := "RSASSA_PKCS1_V1_5_SHA_256"

/-- `AWSKMSSignerConfig` from `types.ts`. -/
structure AWSKMSSignerConfig where
  keyId : String
  region : Option String
  credentials : Option (String × String × Option String)

/-- `SignedContext` from `types.ts`: the signed envelope. -/
structure SignedContext where
  context : Context
  signature : String
  keyId : String
  timestamp : Nat
  algorithm : String

/-- `VerificationResult` from `types.ts`. -/
structure VerificationResult where
  isValid : Bool
  error : Option String
  context : Option Context

/-- The `SignCommand` parameters sent to KMS. -/
structure SignRequest where
  keyId : String
  message : List Nat
  messageType : String
  signingAlgorithm : String

/-- The KMS `Sign` response: optional signature bytes. -/
structure SignResponse where
  signature : Option (List Nat)

/-- The KMS `GetPublicKey` response: optional DER public key bytes. -/
structure GetPublicKeyResponse where
  publicKey : Option (List Nat)

/-- The external collaborators: the KMS client (`send` for `SignCommand`,
`getPublicKey` for `GetPublicKeyCommand`) and the Node `crypto` verification
primitive (`createVerify(alg)`, `update(message)`, `verify(pem, signature)`).
Each may fail with a thrown error message. -/
structure KmsEnv where
  send : SignRequest → Except String SignResponse
  getPublicKey : String → Except String GetPublicKeyResponse
  cryptoVerify : String → List Nat → String → List Nat → Except String Bool

/-- The body of `sign`'s `try` block: canonicalize, submit to KMS, demand
signature bytes, and build the envelope. -/
def signInner (env : KmsEnv) (config : AWSKMSSignerConfig) (context : Context)
    (algorithm : String) (now : Nat) : Except String SignedContext :=
  let contextString := canonicalizeContext context
  let message := utf8Bytes contextString
  match env.send ⟨config.keyId, message, "RAW", algorithm⟩ with
  | Except.error e => Except.error e
  | Except.ok signResult =>
    match signResult.signature with
    | none => Except.error "KMS signing failed: No signature returned"
    | some sigBytes =>
        Except.ok ⟨context, base64encode sigBytes, config.keyId, now, algorithm⟩

/-- `sign`: any error thrown inside the `try` block is re-thrown wrapped as
`Failed to sign FDC3 context: <message>`. -/
def sign (env : KmsEnv) (config : AWSKMSSignerConfig) (context : Context)
    (algorithm : String) (now : Nat) : Except String SignedContext :=
  match signInner env config context algorithm now with
  | Except.ok v => Except.ok v
  | Except.error msg => Except.error ("Failed to sign FDC3 context: " ++ msg)

/-- The body of `verify`'s `try` block: fetch the public key (early non-valid
return when KMS supplies none), re-canonicalize, decode the signature, convert
the key to PEM, map the algorithm, and run the local verification
primitive. -/
def verifyInner (env : KmsEnv) (signedContext : SignedContext) :
    Except String VerificationResult :=
  match env.getPublicKey signedContext.keyId with
  | Except.error e => Except.error e
  | Except.ok publicKeyResult =>
    match publicKeyResult.publicKey with
    | none => Except.ok ⟨false, some "Could not retrieve public key from KMS", none⟩
    | some pk =>
      let contextString := canonicalizeContext signedContext.context
      let message := utf8Bytes contextString
      let signature := base64decode signedContext.signature
      let publicKeyPem := derToPem pk
      match getNodeAlgorithm signedContext.algorithm with
      | Except.error e => Except.error e
      | Except.ok nodeAlg =>
        match env.cryptoVerify nodeAlg message publicKeyPem signature with
        | Except.error e => Except.error e
        | Except.ok isValid =>
            Except.ok ⟨isValid,
              if isValid then none else some "Signature verification failed",
              if isValid then some signedContext.context else none⟩

/-- `verify`: any error thrown inside the `try` block is caught and converted
to a non-valid outcome carrying `Verification error: <message>`. -/
def verify (env : KmsEnv) (signedContext : SignedContext) : VerificationResult :=
  match verifyInner env signedContext with
  | Except.ok r => r
  | Except.error msg => ⟨false, some ("Verification error: " ++ msg), none⟩

/-- Well-formedness of a structured object: no mapping holds the same key
twice, at any nesting level.  JavaScript objects satisfy this by
construction. -/
def wf : JValue → Bool
  | JValue.null => true
  | JValue.bool _ => true
  | JValue.num _ => true
  | JValue.str _ => true
  | JValue.arr xs => xs.attach.all fun x => wf x.val
  | JValue.obj fields =>
      decide (keysOf fields).Nodup && fields.attach.all fun p => wf p.val.snd
termination_by v => sizeOf v
decreasing_by
  · have h := List.sizeOf_lt_of_mem x.property
    simp only [JValue.arr.sizeOf_spec]
    omega
  · have h := List.sizeOf_lt_of_mem p.property
    have h2 : sizeOf p.val.snd < sizeOf p.val := by
      obtain ⟨k, v⟩ := p.val
      simp
    simp only [JValue.obj.sizeOf_spec]
    omega

/-- A character-list is in ascending (weak) lexicographic order. -/
def sortedAsc : List String → Bool
  | [] => true
  | [_] => true
  | a :: b :: rest => decide (a ≤ b) && sortedAsc (b :: rest)

/-- Every mapping inside a value lists its keys in ascending lexicographic
order (the canonical form produced by `sortKeys`). -/
def keySorted : JValue → Bool
  | JValue.null => true
  | JValue.bool _ => true
  | JValue.num _ => true
  | JValue.str _ => true
  | JValue.arr xs => xs.attach.all fun x => keySorted x.val
  | JValue.obj fields =>
      sortedAsc (keysOf fields) && fields.attach.all fun p => keySorted p.val.snd
termination_by v => sizeOf v
decreasing_by
  · have h := List.sizeOf_lt_of_mem x.property
    simp only [JValue.arr.sizeOf_spec]
    omega
  · have h := List.sizeOf_lt_of_mem p.property
    have h2 : sizeOf p.val.snd < sizeOf p.val := by
      obtain ⟨k, v⟩ := p.val
      simp
    simp only [JValue.obj.sizeOf_spec]
    omega

/-- Two structured objects are equal up to reordering the key order of their
mappings, at any nesting level: same keys, same values (recursively up to the
same relation), sequences keep order and length. -/
inductive CtxPerm : JValue → JValue → Prop where
  | null : CtxPerm JValue.null JValue.null
  | bool (b : Bool) : CtxPerm (JValue.bool b) (JValue.bool b)
  | num (n : Int) : CtxPerm (JValue.num n) (JValue.num n)
  | str (s : String) : CtxPerm (JValue.str s) (JValue.str s)
  | arrNil : CtxPerm (JValue.arr []) (JValue.arr [])
  | arrCons {x y : JValue} {xs ys : List JValue} :
      CtxPerm x y → CtxPerm (JValue.arr xs) (JValue.arr ys) →
      CtxPerm (JValue.arr (x :: xs)) (JValue.arr (y :: ys))
  | objNil : CtxPerm (JValue.obj []) (JValue.obj [])
  | objCons {k : String} {v w : JValue} {fs gs : List (String × JValue)} :
      CtxPerm v w → CtxPerm (JValue.obj fs) (JValue.obj gs) →
      CtxPerm (JValue.obj ((k, v) :: fs)) (JValue.obj ((k, w) :: gs))
  | objPerm {fs gs hs : List (String × JValue)} :
      List.Perm fs gs → CtxPerm (JValue.obj gs) (JValue.obj hs) →
      CtxPerm (JValue.obj fs) (JValue.obj hs)

/-- Strong induction on the size of a structured value. -/
theorem jvalue_size_induction (P : JValue → Prop)
    (step : ∀ v, (∀ w, sizeOf w < sizeOf v → P w) → P v) : ∀ v, P v := by
  have key : ∀ n v, sizeOf v < n → P v := by
    intro n
    induction n with
    | zero => intro v h; omega
    | succ n ih => intro v h; exact step v (fun w hw => ih w (by omega))
  exact fun v => key (sizeOf v + 1) v (by omega)

theorem sizeOf_mem_arr {x : JValue} {xs : List JValue} (h : x ∈ xs) :
    sizeOf x < sizeOf (JValue.arr xs) := by
  have := List.sizeOf_lt_of_mem h
  simp only [JValue.arr.sizeOf_spec]
  omega

theorem sizeOf_mem_obj {k : String} {v : JValue} {fields : List (String × JValue)}
    (h : (k, v) ∈ fields) : sizeOf v < sizeOf (JValue.obj fields) := by
  have h1 := List.sizeOf_lt_of_mem h
  have h2 : sizeOf v < sizeOf (k, v) := by simp
  simp only [JValue.obj.sizeOf_spec]
  omega

theorem sizeOf_jlookup (k : String) (fields : List (String × JValue)) :
    sizeOf (jlookup k fields) < sizeOf (JValue.obj fields) := by
  have := sizeOf_jlookup_lt k fields
  simp only [JValue.obj.sizeOf_spec]
  omega

theorem sortKeys_arr (xs : List JValue) :
    sortKeys (JValue.arr xs) = JValue.arr (xs.map sortKeys) := by
  rw [sortKeys]
  congr 1
  exact List.attach_map_val xs sortKeys

theorem sortKeys_obj (fields : List (String × JValue)) :
    sortKeys (JValue.obj fields) =
      JValue.obj (((keysOf fields).insertionSort (fun a b => a ≤ b)).map
        fun k => (k, sortKeys (jlookup k fields))) := by
  rw [sortKeys]

theorem wf_arr_iff (xs : List JValue) :
    wf (JValue.arr xs) = true ↔ ∀ x ∈ xs, wf x = true := by
  rw [wf]
  simp [List.all_eq_true]

theorem wf_obj_iff (fields : List (String × JValue)) :
    wf (JValue.obj fields) = true ↔
      (keysOf fields).Nodup ∧ ∀ p ∈ fields, wf p.snd = true := by
  rw [wf]
  simp [List.all_eq_true]

theorem keySorted_arr_iff (xs : List JValue) :
    keySorted (JValue.arr xs) = true ↔ ∀ x ∈ xs, keySorted x = true := by
  rw [keySorted]
  simp [List.all_eq_true]

theorem keySorted_obj_iff (fields : List (String × JValue)) :
    keySorted (JValue.obj fields) = true ↔
      sortedAsc (keysOf fields) = true ∧ ∀ p ∈ fields, keySorted p.snd = true := by
  rw [keySorted]
  simp [List.all_eq_true]

theorem wf_null : wf JValue.null = true := by rw [wf]

theorem wf_bool (b : Bool) : wf (JValue.bool b) = true := by rw [wf]

theorem wf_num (n : Int) : wf (JValue.num n) = true := by rw [wf]

theorem wf_str (s : String) : wf (JValue.str s) = true := by rw [wf]

theorem wf_jlookup {fields : List (String × JValue)} (k : String)
    (h : ∀ p ∈ fields, wf p.snd = true) : wf (jlookup k fields) = true := by
  induction fields with
  | nil => simp [jlookup, wf]
  | cons p rest ih =>
    obtain ⟨k', v⟩ := p
    simp only [jlookup]
    split
    · exact h (k', v) (by simp)
    · exact ih (fun q hq => h q (by simp [hq]))

theorem jlookup_mem_or_null (k : String) (fields : List (String × JValue)) :
    (k, jlookup k fields) ∈ fields ∨ jlookup k fields = JValue.null := by
  induction fields with
  | nil => simp [jlookup]
  | cons p rest ih =>
    obtain ⟨k', v⟩ := p
    simp only [jlookup]
    split
    · left
      rename_i heq
      simp [heq]
    · rcases ih with h | h
      · left; exact List.mem_cons_of_mem _ h
      · right; exact h

/-- With duplicate-free keys, property lookup is invariant under permutation
of the property list. -/
theorem jlookup_perm {fs gs : List (String × JValue)} (hperm : List.Perm fs gs)
    (hnd : (keysOf fs).Nodup) (k : String) : jlookup k fs = jlookup k gs := by
  induction hperm with
  | nil => rfl
  | cons p _ ih =>
    obtain ⟨k', v⟩ := p
    simp only [jlookup]
    split
    · rfl
    · exact ih (by simp [keysOf] at hnd ⊢; exact hnd.2)
  | swap p q l =>
    obtain ⟨kp, vp⟩ := p
    obtain ⟨kq, vq⟩ := q
    simp only [jlookup]
    by_cases h1 : kp = k
    · by_cases h2 : kq = k
      · exfalso
        simp [keysOf] at hnd
        exact hnd.1.1 (h2.trans h1.symm)
      · simp [h1, h2]
    · simp [h1]
  | trans h12 _ ih1 ih2 =>
    have hnd2 : (keysOf _).Nodup := ((h12.map Prod.fst).nodup_iff).mp hnd
    exact (ih1 hnd).trans (ih2 hnd2)

/-- With duplicate-free keys, pairing each key with its looked-up value
reconstructs the property list. -/
theorem map_keys_jlookup {fields : List (String × JValue)}
    (hnd : (keysOf fields).Nodup) :
    (keysOf fields).map (fun k => (k, jlookup k fields)) = fields := by
  induction fields with
  | nil => rfl
  | cons p rest ih =>
    obtain ⟨k, v⟩ := p
    simp only [keysOf, List.map_cons] at hnd ⊢
    simp only [List.nodup_cons] at hnd
    have hk : jlookup k ((k, v) :: rest) = v := by simp [jlookup]
    rw [hk]
    congr 1
    have : ∀ j ∈ rest.map Prod.fst, jlookup j ((k, v) :: rest) = jlookup j rest := by
      intro j hj
      have hjk : k ≠ j := fun h => hnd.1 (h ▸ hj)
      simp [jlookup, hjk]
    calc (rest.map Prod.fst).map (fun j => (j, jlookup j ((k, v) :: rest)))
        = (rest.map Prod.fst).map (fun j => (j, jlookup j rest)) := by
          apply List.map_congr_left
          intro j hj
          rw [this j hj]
      _ = rest := ih hnd.2

/-- Sorting is invariant under permutation of the input. -/
theorem insertionSort_eq_of_perm {l₁ l₂ : List String} (h : List.Perm l₁ l₂) :
    l₁.insertionSort (fun a b => a ≤ b) = l₂.insertionSort (fun a b => a ≤ b) :=
  List.eq_of_perm_of_sorted
    ((List.perm_insertionSort _ l₁).trans (h.trans (List.perm_insertionSort _ l₂).symm))
    (List.sorted_insertionSort _ l₁)
    (List.sorted_insertionSort _ l₂)

theorem sortedAsc_of_sorted {l : List String} (h : l.Sorted (fun a b => a ≤ b)) :
    sortedAsc l = true := by
  induction l with
  | nil => rfl
  | cons a rest ih =>
    cases rest with
    | nil => rfl
    | cons b rest' =>
      rw [List.sorted_cons] at h
      simp only [sortedAsc, Bool.and_eq_true, decide_eq_true_eq]
      exact ⟨h.1 b (by simp), ih h.2⟩

theorem ctxPerm_refl : ∀ v, CtxPerm v v
  | JValue.null => CtxPerm.null
  | JValue.bool b => CtxPerm.bool b
  | JValue.num n => CtxPerm.num n
  | JValue.str s => CtxPerm.str s
  | JValue.arr [] => CtxPerm.arrNil
  | JValue.arr (x :: xs) =>
      CtxPerm.arrCons (ctxPerm_refl x) (ctxPerm_refl (JValue.arr xs))
  | JValue.obj [] => CtxPerm.objNil
  | JValue.obj ((k, v) :: fs) =>
      CtxPerm.objCons (ctxPerm_refl v) (ctxPerm_refl (JValue.obj fs))
termination_by v => sizeOf v
decreasing_by
  all_goals first
  | (simp; omega)
  | simp
  | omega

theorem jlookup_not_mem {k : String} {l : List (String × JValue)}
    (h : k ∉ keysOf l) : jlookup k l = JValue.null := by
  induction l with
  | nil => rfl
  | cons p rest ih =>
    obtain ⟨k', v⟩ := p
    simp only [keysOf, List.map_cons, List.mem_cons, not_or] at h
    simp only [jlookup]
    rw [if_neg (fun he => h.1 he.symm)]
    exact ih (by simpa [keysOf] using h.2)

theorem wf_obj_perm {fs gs : List (String × JValue)} (h : List.Perm fs gs)
    (hwf : wf (JValue.obj fs) = true) : wf (JValue.obj gs) = true := by
  rw [wf_obj_iff] at hwf ⊢
  exact ⟨((h.map Prod.fst).nodup_iff).mp hwf.1,
    fun p hp => hwf.2 p (h.symm.subset hp)⟩

/-- Core order-invariance: `sortKeys` maps deep-permutation-equivalent
well-formed values to the same canonical form. -/
theorem sortKeys_eq_of_ctxPerm {a b : JValue} (h : CtxPerm a b) :
    wf a = true → wf b = true → sortKeys a = sortKeys b := by
  induction h with
  | null => intro _ _; rfl
  | bool b => intro _ _; rfl
  | num n => intro _ _; rfl
  | str s => intro _ _; rfl
  | arrNil => intro _ _; rfl
  | objNil => intro _ _; rfl
  | arrCons hxy hxs ihx ihxs =>
    rename_i x y xs ys
    intro ha hb
    rw [wf_arr_iff] at ha hb
    have h1 := ihx (ha _ (by simp)) (hb _ (by simp))
    have h2 := ihxs ((wf_arr_iff _).mpr fun z hz => ha z (by simp [hz]))
                    ((wf_arr_iff _).mpr fun z hz => hb z (by simp [hz]))
    rw [sortKeys_arr, sortKeys_arr] at h2 ⊢
    have h2' : List.map sortKeys xs = List.map sortKeys ys := by injection h2
    simp only [List.map_cons]
    rw [h1, h2']
  | objCons hvw hfg ihv ihobj =>
    rename_i k v w fs gs
    intro ha hb
    rw [wf_obj_iff] at ha hb
    simp only [keysOf, List.map_cons, List.nodup_cons] at ha hb
    have hav := ha.2 _ (List.mem_cons_self _ _)
    have hbw := hb.2 _ (List.mem_cons_self _ _)
    have h1 : sortKeys v = sortKeys w := ihv hav hbw
    have hwfs : wf (JValue.obj fs) = true := by
      rw [wf_obj_iff]
      exact ⟨ha.1.2, fun p hp => ha.2 p (List.mem_cons_of_mem _ hp)⟩
    have hwgs : wf (JValue.obj gs) = true := by
      rw [wf_obj_iff]
      exact ⟨hb.1.2, fun p hp => hb.2 p (List.mem_cons_of_mem _ hp)⟩
    have h2 := ihobj hwfs hwgs
    rw [sortKeys_obj, sortKeys_obj] at h2
    simp only [JValue.obj.injEq] at h2
    -- the two sorted key lists agree
    have hL : (keysOf fs).insertionSort (fun a b => a ≤ b)
        = (keysOf gs).insertionSort (fun a b => a ≤ b) := by
      have h3 := congrArg (List.map Prod.fst) h2
      rw [List.map_map, List.map_map] at h3
      simpa [Function.comp_def] using h3
    have hkperm : List.Perm (keysOf fs) (keysOf gs) := by
      have hmid : List.Perm ((keysOf fs).insertionSort (fun a b => a ≤ b)) (keysOf gs) := by
        rw [hL]
        exact List.perm_insertionSort _ _
      exact (List.perm_insertionSort _ _).symm.trans hmid
    -- pointwise equality of sorted looked-up values over the common key list
    have hpoint : ∀ j ∈ (keysOf fs).insertionSort (fun a b => a ≤ b),
        sortKeys (jlookup j fs) = sortKeys (jlookup j gs) := by
      intro j hj
      have := h2
      rw [hL] at this
      have hmap := (List.map_eq_map_iff).mp this
      have := hmap j (hL ▸ hj)
      simpa using this
    -- now the goal
    rw [sortKeys_obj, sortKeys_obj]
    congr 1
    have hkeys1 : keysOf ((k, v) :: fs) = k :: keysOf fs := by simp [keysOf]
    have hkeys2 : keysOf ((k, w) :: gs) = k :: keysOf gs := by simp [keysOf]
    rw [hkeys1, hkeys2]
    have hM : (k :: keysOf fs).insertionSort (fun a b => a ≤ b)
        = (k :: keysOf gs).insertionSort (fun a b => a ≤ b) :=
      insertionSort_eq_of_perm (hkperm.cons k)
    rw [hM]
    apply List.map_congr_left
    intro j hj
    have hjmem : j ∈ k :: keysOf gs :=
      (List.perm_insertionSort _ _).subset hj
    by_cases hkj : k = j
    · simp [jlookup, hkj, h1]
    · simp only [jlookup, if_neg hkj]
      rcases List.mem_cons.mp hjmem with h | h
      · exact absurd h.symm hkj
      · have hjfs : j ∈ keysOf fs := hkperm.symm.subset h
        have : j ∈ (keysOf fs).insertionSort (fun a b => a ≤ b) :=
          (List.perm_insertionSort _ _).symm.subset hjfs
        rw [hpoint j this]
  | objPerm hperm hrest ih =>
    rename_i fs gs hs
    intro ha hb
    have hwgs : wf (JValue.obj gs) = true := wf_obj_perm hperm ha
    have h2 := ih hwgs hb
    refine Eq.trans ?_ h2
    rw [sortKeys_obj, sortKeys_obj]
    congr 1
    have hkperm : List.Perm (keysOf fs) (keysOf gs) := hperm.map Prod.fst
    rw [insertionSort_eq_of_perm hkperm]
    apply List.map_congr_left
    intro j _
    have hnd : (keysOf fs).Nodup := ((wf_obj_iff fs).mp ha).1
    rw [jlookup_perm hperm hnd j]

/-- Pointwise rewriting of mapping values is a deep key-order equivalence. -/
theorem ctxPerm_obj_map {l : List (String × JValue)} {f : JValue → JValue}
    (h : ∀ p ∈ l, CtxPerm p.snd (f p.snd)) :
    CtxPerm (JValue.obj l) (JValue.obj (l.map fun p => (p.fst, f p.snd))) := by
  induction l with
  | nil => exact CtxPerm.objNil
  | cons p rest ih =>
    obtain ⟨k, v⟩ := p
    exact CtxPerm.objCons (h (k, v) (by simp))
      (ih fun q hq => h q (by simp [hq]))

theorem sortKeys_null : sortKeys JValue.null = JValue.null := by rw [sortKeys]

theorem sortKeys_bool (b : Bool) : sortKeys (JValue.bool b) = JValue.bool b := by rw [sortKeys]

theorem sortKeys_num (n : Int) : sortKeys (JValue.num n) = JValue.num n := by rw [sortKeys]

theorem sortKeys_str (s : String) : sortKeys (JValue.str s) = JValue.str s := by rw [sortKeys]

/-- The canonical form has every mapping's keys in ascending order. -/
theorem keySorted_sortKeys : ∀ v, keySorted (sortKeys v) = true := by
  apply jvalue_size_induction
  intro v ih
  cases v with
  | null => simp [sortKeys_null, keySorted]
  | bool b => simp [sortKeys_bool, keySorted]
  | num n => simp [sortKeys_num, keySorted]
  | str s => simp [sortKeys_str, keySorted]
  | arr xs =>
    rw [sortKeys_arr, keySorted_arr_iff]
    intro z hz
    obtain ⟨x, hx, rfl⟩ := List.mem_map.mp hz
    exact ih x (sizeOf_mem_arr hx)
  | obj fields =>
    rw [sortKeys_obj, keySorted_obj_iff]
    constructor
    · have : keysOf (((keysOf fields).insertionSort (fun a b => a ≤ b)).map
          fun k => (k, sortKeys (jlookup k fields)))
          = (keysOf fields).insertionSort (fun a b => a ≤ b) := by
        simp [keysOf, List.map_map, Function.comp_def]
      rw [this]
      exact sortedAsc_of_sorted (List.sorted_insertionSort _ _)
    · intro p hp
      obtain ⟨k, _, rfl⟩ := List.mem_map.mp hp
      exact ih _ (sizeOf_jlookup k fields)

/-- `sortKeys` only reorders mapping keys: its output is deep-permutation
equivalent to its well-formed input. -/
theorem ctxPerm_sortKeys : ∀ v, wf v = true → CtxPerm v (sortKeys v) := by
  apply jvalue_size_induction
  intro v ih hwf
  cases v with
  | null => rw [sortKeys_null]; exact CtxPerm.null
  | bool b => rw [sortKeys_bool]; exact CtxPerm.bool b
  | num n => rw [sortKeys_num]; exact CtxPerm.num n
  | str s => rw [sortKeys_str]; exact CtxPerm.str s
  | arr xs =>
    rw [sortKeys_arr]
    rw [wf_arr_iff] at hwf
    have key : ∀ ys : List JValue, (∀ y ∈ ys, wf y = true) →
        (∀ y ∈ ys, sizeOf y < sizeOf (JValue.arr xs)) →
        CtxPerm (JValue.arr ys) (JValue.arr (ys.map sortKeys)) := by
      intro ys
      induction ys with
      | nil => intro _ _; exact CtxPerm.arrNil
      | cons z zs ihz =>
        intro hwfy hsz
        exact CtxPerm.arrCons (ih z (hsz z (by simp)) (hwfy z (by simp)))
          (ihz (fun y hy => hwfy y (by simp [hy])) (fun y hy => hsz y (by simp [hy])))
    exact key xs hwf (fun y hy => sizeOf_mem_arr hy)
  | obj fields =>
    rw [sortKeys_obj]
    rw [wf_obj_iff] at hwf
    obtain ⟨hnd, hmem⟩ := hwf
    have hperm : List.Perm fields
        (((keysOf fields).insertionSort (fun a b => a ≤ b)).map
          fun k => (k, jlookup k fields)) := by
      conv_lhs => rw [← map_keys_jlookup hnd]
      exact ((List.perm_insertionSort _ (keysOf fields)).symm).map _
    apply CtxPerm.objPerm hperm
    have hcomp : (((keysOf fields).insertionSort (fun a b => a ≤ b)).map
          (fun k => (k, jlookup k fields))).map (fun p => (p.fst, sortKeys p.snd))
        = ((keysOf fields).insertionSort (fun a b => a ≤ b)).map
          (fun k => (k, sortKeys (jlookup k fields))) := by
      rw [List.map_map]
      simp [Function.comp_def]
    rw [← hcomp]
    apply ctxPerm_obj_map
    intro p hp
    obtain ⟨k, _, rfl⟩ := List.mem_map.mp hp
    exact ih _ (sizeOf_jlookup k fields) (wf_jlookup k hmem)

theorem b64Val_b64Char : ∀ n < 64, b64Val (b64Char n) = some n := by decide

theorem b64Val_pad : b64Val '=' = none := by decide

/-- Decoding inverts encoding at the character level, for byte-valued
inputs. -/
theorem base64_roundtrip_chars :
    ∀ bs : List Nat, (∀ b ∈ bs, b < 256) →
      sextetsToBytes ((base64encodeChars bs).filterMap b64Val) = bs
  | [], _ => rfl
  | [a], h => by
    have ha : a < 256 := h a (by simp)
    have h1 := b64Val_b64Char (a / 4) (by omega)
    have h2 := b64Val_b64Char (a % 4 * 16) (by omega)
    simp [base64encodeChars, List.filterMap_cons, h1, h2, b64Val_pad, sextetsToBytes]
    omega
  | [a, b], h => by
    have ha : a < 256 := h a (by simp)
    have hb : b < 256 := h b (by simp)
    have h1 := b64Val_b64Char (a / 4) (by omega)
    have h2 := b64Val_b64Char (a % 4 * 16 + b / 16) (by omega)
    have h3 := b64Val_b64Char (b % 16 * 4) (by omega)
    simp [base64encodeChars, List.filterMap_cons, h1, h2, h3, b64Val_pad, sextetsToBytes]
    constructor
    · omega
    · omega
  | a :: b :: c :: rest, h => by
    have ha : a < 256 := h a (by simp)
    have hb : b < 256 := h b (by simp)
    have hc : c < 256 := h c (by simp)
    have h1 := b64Val_b64Char (a / 4) (by omega)
    have h2 := b64Val_b64Char (a % 4 * 16 + b / 16) (by omega)
    have h3 := b64Val_b64Char (b % 16 * 4 + c / 64) (by omega)
    have h4 := b64Val_b64Char (c % 64) (by omega)
    have ih := base64_roundtrip_chars rest (fun x hx => h x (by simp [hx]))
    simp [base64encodeChars, List.filterMap_cons, h1, h2, h3, h4, sextetsToBytes, ih]
    refine ⟨by omega, by omega, by omega⟩

/-- `Buffer.from(Buffer.from(bytes).toString('base64'), 'base64')` returns
the original bytes. -/
theorem base64_roundtrip (bs : List Nat) (h : ∀ b ∈ bs, b < 256) :
    base64decode (base64encode bs) = bs :=
  base64_roundtrip_chars bs h

/-- The 64-character chunks concatenate back to the original text. -/
theorem chunk64_flatten (cs : List Char) : (chunk64 cs).flatten = cs := by
  rw [chunk64]
  split
  · rename_i h
    simp [h]
  · rename_i h
    have ih := chunk64_flatten (cs.drop 64)
    simp [List.flatten_cons, ih, List.take_append_drop]
termination_by cs.length
decreasing_by
  rename_i hne
  have h2 : 0 < cs.length := List.length_pos.mpr hne
  simp [List.length_drop]
  omega

/-- Every 64-character chunk is nonempty and at most 64 characters long. -/
theorem chunk64_length (cs : List Char) :
    ∀ l ∈ chunk64 cs, l.length ≤ 64 ∧ 0 < l.length := by
  rw [chunk64]
  split
  · simp
  · rename_i h
    intro l hl
    rcases List.mem_cons.mp hl with rfl | hmem
    · constructor
      · simpa using List.length_take_le 64 cs
      · have h2 : 0 < cs.length := List.length_pos.mpr h
        simp [List.length_take]
        omega
    · exact chunk64_length (cs.drop 64) l hmem
termination_by cs.length
decreasing_by
  rename_i hne
  have h2 : 0 < cs.length := List.length_pos.mpr hne
  simp [List.length_drop]
  omega

/-- A concrete FDC3 instrument context, for concrete instantiations. -/
def ctxW : Context :=
  JValue.obj [("type", JValue.str "fdc3.instrument"),
              ("id", JValue.obj [("ticker", JValue.str "AAPL")])]

/-- A concrete signer configuration. -/
def cfgW : AWSKMSSignerConfig := ⟨"key-1", none, none⟩

/-- A concrete signed envelope with a supported algorithm. -/
def scW : SignedContext := ⟨ctxW, "AAAA", "key-1", 0, "ECDSA_SHA_256"⟩

/-- A concrete signed envelope carrying an unrecognized algorithm. -/
def scBadAlg : SignedContext := ⟨ctxW, "AAAA", "key-1", 0, "FOO"⟩

/-- An environment in which every remote call succeeds. -/
def envW : KmsEnv :=
  ⟨fun _ => Except.ok ⟨some [1, 2, 3]⟩,
   fun _ => Except.ok ⟨some [9, 9]⟩,
   fun _ _ _ _ => Except.ok true⟩

/-- An environment whose key service returns no public key material. -/
def envNoKey : KmsEnv :=
  ⟨fun _ => Except.ok ⟨some [1]⟩,
   fun _ => Except.ok ⟨none⟩,
   fun _ _ _ _ => Except.ok true⟩

/-- An environment whose public-key fetch throws. -/
def envKeyError : KmsEnv :=
  ⟨fun _ => Except.ok ⟨some [1]⟩,
   fun _ => Except.error "network failure",
   fun _ _ _ _ => Except.ok true⟩

/-- An environment whose signing call throws. -/
def envSendError : KmsEnv :=
  ⟨fun _ => Except.error "access denied",
   fun _ => Except.ok ⟨none⟩,
   fun _ _ _ _ => Except.ok false⟩

/-- A two-key mapping and the same mapping with its keys listed in the
other order. -/
def permA : Context := JValue.obj [("b", JValue.num 1), ("a", JValue.null)]

/-- The key-permuted counterpart of `permA`. -/
def permB : Context := JValue.obj [("a", JValue.null), ("b", JValue.num 1)]

/-- C1.  Round-trip integrity: when the remote service signs the canonical
bytes of a well-formed payload and returns a matching public key (one the
local primitive accepts for that signature), `verify` applied to the
envelope produced by `sign` yields `isValid = true` with the payload
deep-equal to the original. -/
theorem verify_sign_roundtrip (env : KmsEnv) (cfg : AWSKMSSignerConfig)
    (payload : Context) (now : Nat) (sigBytes pk : List Nat)
    (hwf : wf payload = true)
    (hbytes : ∀ b ∈ sigBytes, b < 256)
    (hsign : env.send ⟨cfg.keyId, utf8Bytes (canonicalizeContext payload), "RAW",
      defaultAlgorithm⟩ = Except.ok ⟨some sigBytes⟩)
    (hpk : env.getPublicKey cfg.keyId = Except.ok ⟨some pk⟩)
    (hcrypto : env.cryptoVerify "RSA-SHA256" (utf8Bytes (canonicalizeContext payload))
      (derToPem pk) sigBytes = Except.ok true) :
    ∃ e, sign env cfg payload defaultAlgorithm now = Except.ok e ∧
      verify env e = ⟨true, none, some payload⟩ := by
  refine ⟨⟨payload, base64encode sigBytes, cfg.keyId, now, defaultAlgorithm⟩, ?_, ?_⟩
  · simp [sign, signInner, hsign]
  · simp [verify, verifyInner, hpk, getNodeAlgorithm, defaultAlgorithm,
      base64_roundtrip sigBytes hbytes, hcrypto]

theorem verify_sign_roundtrip_witness :
    ∃ e, sign envW cfgW ctxW defaultAlgorithm 0 = Except.ok e ∧
      verify envW e = ⟨true, none, some ctxW⟩ :=
  verify_sign_roundtrip envW cfgW ctxW 0 [1, 2, 3] [9, 9]
    (by simp [ctxW, wf_obj_iff, wf_null, wf_bool, wf_num, wf_str, keysOf])
    (by decide) rfl rfl rfl

/-- C2.  Canonicalization order-invariance: permuting the key order of any
mapping inside a well-formed structured object (same keys, same values)
leaves the canonical byte sequence unchanged. -/
theorem canonicalize_order_invariant {o o' : Context} (h : CtxPerm o o')
    (hwf : wf o = true) (hwf' : wf o' = true) :
    canonicalBytes o = canonicalBytes o' := by
  unfold canonicalBytes canonicalizeContext
  rw [sortKeys_eq_of_ctxPerm h hwf hwf']

theorem canonicalize_order_invariant_witness :
    canonicalBytes permA = canonicalBytes permB :=
  canonicalize_order_invariant
    (CtxPerm.objPerm (List.Perm.swap ("a", JValue.null) ("b", JValue.num 1) [])
      (ctxPerm_refl (JValue.obj [("a", JValue.null), ("b", JValue.num 1)])))
    (by simp [permA, wf_obj_iff, wf_null, wf_num, keysOf])
    (by simp [permB, wf_obj_iff, wf_null, wf_num, keysOf])

/-- C3.  Verify is total at the interface: whatever error any internal step
raises — the key fetch, or the cryptographic verification call — `verify`
catches it and returns `isValid = false` with an error detail containing the
thrown message; more generally any error of the `try` body is converted to
such an outcome, never propagated. -/
theorem verify_never_raises (env : KmsEnv) (sc : SignedContext) :
    (∀ m, env.getPublicKey sc.keyId = Except.error m →
      verify env sc = ⟨false, some ("Verification error: " ++ m), none⟩) ∧
    (∀ pk na m, env.getPublicKey sc.keyId = Except.ok ⟨some pk⟩ →
      getNodeAlgorithm sc.algorithm = Except.ok na →
      env.cryptoVerify na (utf8Bytes (canonicalizeContext sc.context)) (derToPem pk)
        (base64decode sc.signature) = Except.error m →
      verify env sc = ⟨false, some ("Verification error: " ++ m), none⟩) ∧
    (∀ m, verifyInner env sc = Except.error m →
      verify env sc = ⟨false, some ("Verification error: " ++ m), none⟩) := by
  refine ⟨?_, ?_, ?_⟩
  · intro m hm
    simp [verify, verifyInner, hm]
  · intro pk na m hpk hna hcv
    simp [verify, verifyInner, hpk, hna, hcv]
  · intro m hm
    simp [verify, hm]

theorem verify_never_raises_witness :
    verify envKeyError scW =
      ⟨false, some ("Verification error: " ++ "network failure"), none⟩ :=
  (verify_never_raises envKeyError scW).1 "network failure" rfl

/-- C4 (amended).  Exactly the identifiers `RSASSA_PKCS1_V1_5_SHA_256` and
`ECDSA_SHA_256` are mapped to a local verification primitive; for an
envelope carrying any other algorithm value, `verify` always returns
`isValid = false` (never a false positive), and — whenever the public-key
fetch succeeds — its error detail names the unrecognized algorithm value. -/
theorem verify_unsupported_algorithm :
    (∀ alg, (∃ na, getNodeAlgorithm alg = Except.ok na) ↔
      (alg = "RSASSA_PKCS1_V1_5_SHA_256" ∨ alg = "ECDSA_SHA_256")) ∧
    (∀ (env : KmsEnv) (sc : SignedContext),
      sc.algorithm ≠ "RSASSA_PKCS1_V1_5_SHA_256" →
      sc.algorithm ≠ "ECDSA_SHA_256" →
      (verify env sc).isValid = false ∧
      (∀ pk, env.getPublicKey sc.keyId = Except.ok ⟨some pk⟩ →
        (verify env sc).error =
          some ("Verification error: " ++ ("Unsupported algorithm: " ++ sc.algorithm)))) := by
  constructor
  · intro alg
    unfold getNodeAlgorithm
    split
    · rename_i h
      exact ⟨fun _ => Or.inl h, fun _ => ⟨"RSA-SHA256", rfl⟩⟩
    · split
      · rename_i h1 h2
        exact ⟨fun _ => Or.inr h2, fun _ => ⟨"sha256", rfl⟩⟩
      · rename_i h1 h2
        constructor
        · rintro ⟨na, hna⟩
          exact absurd hna (by simp)
        · rintro (h | h)
          · exact absurd h h1
          · exact absurd h h2
  · intro env sc h1 h2
    have halg : getNodeAlgorithm sc.algorithm =
        Except.error ("Unsupported algorithm: " ++ sc.algorithm) := by
      unfold getNodeAlgorithm
      rw [if_neg h1, if_neg h2]
    constructor
    · rcases hpk : env.getPublicKey sc.keyId with e | pkr
      · simp [verify, verifyInner, hpk]
      · rcases pkr with ⟨_ | pk⟩
        · simp [verify, verifyInner, hpk]
        · simp [verify, verifyInner, hpk, halg]
    · intro pk hpk
      simp [verify, verifyInner, hpk, halg]

theorem verify_unsupported_algorithm_witness :
    (verify envW scBadAlg).isValid = false ∧
    (verify envW scBadAlg).error =
      some ("Verification error: " ++ ("Unsupported algorithm: " ++ scBadAlg.algorithm)) := by
  have h := verify_unsupported_algorithm.2 envW scBadAlg (by decide) (by decide)
  exact ⟨h.1, h.2 [9, 9] rfl⟩

/-- C4 counterexample to the claim as stated: for the envelope `scBadAlg`
(algorithm `"FOO"`) in an environment whose key service yields no public
key, `verify` does return a non-valid outcome, but its error detail is the
missing-key message, which does not name (or even share the first letter
of) the unrecognized algorithm value. -/
theorem verify_unsupported_algorithm_counterexample :
    (verify envNoKey scBadAlg).isValid = false ∧
    (verify envNoKey scBadAlg).error = some "Could not retrieve public key from KMS" ∧
    'F' ∈ scBadAlg.algorithm.data ∧
    'F' ∉ ("Could not retrieve public key from KMS").data := by
  refine ⟨rfl, rfl, by decide, by decide⟩

/-- C5.  Unavailable public key: when the key service returns no public key
material for the envelope's key identifier, `verify` returns the non-valid
outcome with the message `Could not retrieve public key from KMS` — and does
so independently of the envelope's payload and signature, before any
canonicalization or cryptographic work could matter. -/
theorem verify_public_key_unavailable (env : KmsEnv) (sc : SignedContext)
    (h : env.getPublicKey sc.keyId = Except.ok ⟨none⟩) :
    verify env sc = ⟨false, some "Could not retrieve public key from KMS", none⟩ ∧
    (∀ c s, verify env { sc with context := c, signature := s } = verify env sc) := by
  constructor
  · simp [verify, verifyInner, h]
  · intro c s
    simp [verify, verifyInner, h]

theorem verify_public_key_unavailable_witness :
    verify envNoKey scW = ⟨false, some "Could not retrieve public key from KMS", none⟩ :=
  (verify_public_key_unavailable envNoKey scW rfl).1

/-- C6.  Sign is all-or-nothing: a thrown service error surfaces as the
single wrapped error carrying the cause's message, a response without
signature material surfaces as the wrapped `KMS signing failed: No signature
returned` error, and an envelope is returned exactly when the service
supplied signature bytes — never partially. -/
theorem sign_all_or_nothing (env : KmsEnv) (cfg : AWSKMSSignerConfig)
    (context : Context) (algorithm : String) (now : Nat) :
    (∀ m, env.send ⟨cfg.keyId, utf8Bytes (canonicalizeContext context), "RAW", algorithm⟩ =
        Except.error m →
      sign env cfg context algorithm now =
        Except.error ("Failed to sign FDC3 context: " ++ m)) ∧
    (env.send ⟨cfg.keyId, utf8Bytes (canonicalizeContext context), "RAW", algorithm⟩ =
        Except.ok ⟨none⟩ →
      sign env cfg context algorithm now =
        Except.error ("Failed to sign FDC3 context: " ++
          "KMS signing failed: No signature returned")) ∧
    (∀ e, sign env cfg context algorithm now = Except.ok e →
      ∃ sigBytes,
        env.send ⟨cfg.keyId, utf8Bytes (canonicalizeContext context), "RAW", algorithm⟩ =
          Except.ok ⟨some sigBytes⟩ ∧
        e = ⟨context, base64encode sigBytes, cfg.keyId, now, algorithm⟩) := by
  refine ⟨?_, ?_, ?_⟩
  · intro m hm
    simp [sign, signInner, hm]
  · intro hm
    simp [sign, signInner, hm]
  · intro e he
    rcases hs : env.send ⟨cfg.keyId, utf8Bytes (canonicalizeContext context), "RAW",
        algorithm⟩ with m | r
    · simp [sign, signInner, hs] at he
    · rcases r with ⟨_ | sigBytes⟩
      · simp [sign, signInner, hs] at he
      · simp [sign, signInner, hs] at he
        exact ⟨sigBytes, rfl, he.symm⟩

theorem sign_all_or_nothing_witness :
    sign envSendError cfgW ctxW defaultAlgorithm 0 =
      Except.error ("Failed to sign FDC3 context: " ++ "access denied") :=
  (sign_all_or_nothing envSendError cfgW ctxW defaultAlgorithm 0).1 "access denied" rfl

/-- C7.  Canonicalizer algorithm: the canonical rewrite puts every mapping's
keys in ascending lexicographic order, is a pure reordering of mappings (the
output is deep-permutation-equivalent to any well-formed input), maps
sequences elementwise preserving order and length, passes scalars and `null`
through unchanged, and `canonicalizeContext` serializes exactly this rewrite
with the deterministic JSON encoding. -/
theorem canonicalizer_spec :
    (∀ v, keySorted (sortKeys v) = true) ∧
    (∀ v, wf v = true → CtxPerm v (sortKeys v)) ∧
    (∀ xs, sortKeys (JValue.arr xs) = JValue.arr (xs.map sortKeys) ∧
      (xs.map sortKeys).length = xs.length) ∧
    sortKeys JValue.null = JValue.null ∧
    (∀ b, sortKeys (JValue.bool b) = JValue.bool b) ∧
    (∀ n, sortKeys (JValue.num n) = JValue.num n) ∧
    (∀ s, sortKeys (JValue.str s) = JValue.str s) ∧
    (∀ v, canonicalizeContext v = stringify (sortKeys v)) :=
  ⟨keySorted_sortKeys, ctxPerm_sortKeys,
   fun xs => ⟨sortKeys_arr xs, List.length_map xs sortKeys⟩,
   sortKeys_null, sortKeys_bool, sortKeys_num, sortKeys_str,
   fun _ => rfl⟩

theorem canonicalizer_spec_witness : CtxPerm permA (sortKeys permA) :=
  canonicalizer_spec.2.1 permA
    (by simp [permA, wf_obj_iff, wf_null, wf_num, keysOf])

/-- C8.  Outcome shape invariant: on every path, the outcome of `verify`
carries the envelope's payload exactly when it is valid, and carries an
error detail exactly when it is not. -/
theorem verification_outcome_shape (env : KmsEnv) (sc : SignedContext) :
    (verify env sc).context =
      (if (verify env sc).isValid then some sc.context else none) ∧
    (verify env sc).error.isSome = !(verify env sc).isValid := by
  rcases hpk : env.getPublicKey sc.keyId with e | pkr
  · simp [verify, verifyInner, hpk]
  · rcases pkr with ⟨_ | pk⟩
    · simp [verify, verifyInner, hpk]
    · rcases halg : getNodeAlgorithm sc.algorithm with e | na
      · simp [verify, verifyInner, hpk, halg]
      · rcases hcv : env.cryptoVerify na (utf8Bytes (canonicalizeContext sc.context))
            (derToPem pk) (base64decode sc.signature) with e | b
        · simp [verify, verifyInner, hpk, halg, hcv]
        · rcases b with _ | _ <;> simp [verify, verifyInner, hpk, halg, hcv]

/-- C9.  DER-to-PEM: the conversion base64-encodes the binary key, folds the
base64 text into nonempty lines of at most 64 characters whose concatenation
is exactly the base64 text, and wraps them between the PEM header and footer
lines — totally and deterministically. -/
theorem derToPem_spec (derBuffer : List Nat) :
    ∃ lines : List String,
      derToPem derBuffer =
        "-----BEGIN PUBLIC KEY-----\n" ++ String.intercalate "\n" lines ++
          "\n-----END PUBLIC KEY-----" ∧
      (∀ l ∈ lines, l.length ≤ 64 ∧ 0 < l.length) ∧
      (lines.map String.data).flatten = (base64encode derBuffer).data := by
  refine ⟨(chunk64 (base64encode derBuffer).data).map String.mk, rfl, ?_, ?_⟩
  · intro l hl
    obtain ⟨c, hc, rfl⟩ := List.mem_map.mp hl
    have h := chunk64_length _ c hc
    simpa [String.length] using h
  · rw [List.map_map]
    have h : (String.data ∘ String.mk) = id := rfl
    rw [h, List.map_id]
    exact chunk64_flatten _

/-- C10.  `sign` never validates its algorithm argument: even for an
identifier the local mapping rejects, `sign` forwards the value verbatim to
the service and records it verbatim in the envelope, and its only failure
modes are the service's — it never raises a local unsupported-algorithm
error. -/
theorem sign_skips_algorithm_validation (env : KmsEnv) (cfg : AWSKMSSignerConfig)
    (context : Context) (alg : String) (now : Nat)
    (h : getNodeAlgorithm alg = Except.error ("Unsupported algorithm: " ++ alg)) :
    (∀ sigBytes,
      env.send ⟨cfg.keyId, utf8Bytes (canonicalizeContext context), "RAW", alg⟩ =
        Except.ok ⟨some sigBytes⟩ →
      sign env cfg context alg now =
        Except.ok ⟨context, base64encode sigBytes, cfg.keyId, now, alg⟩) ∧
    (∀ m, sign env cfg context alg now = Except.error m →
      (∃ m', env.send ⟨cfg.keyId, utf8Bytes (canonicalizeContext context), "RAW", alg⟩ =
          Except.error m' ∧ m = "Failed to sign FDC3 context: " ++ m') ∨
      (env.send ⟨cfg.keyId, utf8Bytes (canonicalizeContext context), "RAW", alg⟩ =
          Except.ok ⟨none⟩ ∧
        m = "Failed to sign FDC3 context: " ++ "KMS signing failed: No signature returned")) := by
  constructor
  · intro sigBytes hs
    simp [sign, signInner, hs]
  · intro m hm
    rcases hs : env.send ⟨cfg.keyId, utf8Bytes (canonicalizeContext context), "RAW",
        alg⟩ with m' | r
    · simp [sign, signInner, hs] at hm
      exact Or.inl ⟨m', rfl, hm.symm⟩
    · rcases r with ⟨_ | sigBytes⟩
      · simp [sign, signInner, hs] at hm
        exact Or.inr ⟨rfl, hm.symm⟩
      · simp [sign, signInner, hs] at hm

theorem sign_skips_algorithm_validation_witness :
    sign envW cfgW ctxW "FOO" 0 =
      Except.ok ⟨ctxW, base64encode [1, 2, 3], cfgW.keyId, 0, "FOO"⟩ :=
  (sign_skips_algorithm_validation envW cfgW ctxW "FOO" 0 rfl).1 [1, 2, 3] rfl

end FDC3AWSKMSSigner
